import Mathlib

/-!
Shallow embedding of the chunked verification pipeline of the Veritas
repository (src/App.tsx, src/types.ts, and the Gemini service module).
Texts are modelled as `List Char` (JavaScript strings at code-unit level;
every operation the claims exercise is code-unit faithful for the inputs
involved).  The JavaScript float product `size * 0.9` is modelled by the
exact rational comparison `10 * i + 9 * size < 10 * n`, which agrees with
IEEE double arithmetic for every chunk size in actual use.
-/

namespace Veritas

/-- A chunk of the manuscript: a slice of the text plus the offset of its
first character, as produced by `createChunks` in src/App.tsx. -/
structure Chunk where
  text : List Char
  startIndex : Nat
deriving DecidableEq, Inhabited

/-- Models `s.slice(a, b)` of JavaScript on the indices used by the code
(`0 <= a <= b <= s.length`). -/
def jsSlice (s : List Char) (a b : Nat) : List Char :=
  (s.take b).drop a

/-- Models `s.lastIndexOf(c, fromIdx)` of JavaScript: the largest index
`k <= fromIdx` with `s[k] = c`, or `none` when there is no such index
(JavaScript returns -1 there). -/
def lastIndexOf (s : List Char) (c : Char) : Nat → Option Nat
  | 0 => if s.get? 0 = some c then some 0 else none
  | j + 1 => if s.get? (j + 1) = some c then some (j + 1) else lastIndexOf s c j

/-- The end index chosen for the chunk starting at cursor `i`: the body of
the `while` loop of `createChunks` (src/App.tsx lines 140-148).  The hard
candidate is `min (i + size) text.length`; when it falls strictly before
the end of the text, the nearest line break at or before it overrides the
cut exactly when `lastNewline > i + size * 0.9`, written here as the exact
rational comparison `10 * i + 9 * size < 10 * lastNewline`. -/
def chunkEnd (text : List Char) (size i : Nat) : Nat :=
  if min (i + size) text.length < text.length then
    match lastIndexOf text '\n' (min (i + size) text.length) with
    | some lastNewline =>
      if 10 * i + 9 * size < 10 * lastNewline then lastNewline
      else min (i + size) text.length
    | none => min (i + size) text.length
  else min (i + size) text.length

/-- The `while` loop of `createChunks`, with an explicit fuel bound on the
number of iterations; `createChunks` supplies fuel `text.length`, which is
sufficient because the cursor advances by at least one per iteration. -/
def createChunksGo (text : List Char) (size : Nat) : Nat → Nat → List Chunk
  | 0, _ => []
  | fuel + 1, i =>
    if i < text.length then
      ⟨jsSlice text i (chunkEnd text size i), i⟩ ::
        createChunksGo text size fuel (chunkEnd text size i)
    else []

/-- Models `createChunks` of src/App.tsx (lines 136-153). -/
def createChunks (text : List Char) (size : Nat) : List Chunk :=
  createChunksGo text size text.length 0

/-- The chunks of a list start at `i` and are contiguous: each chunk
starts exactly where the previous one ended. -/
def contiguousFrom : Nat → List Chunk → Prop
  | _, [] => True
  | i, c :: rest => c.startIndex = i ∧ contiguousFrom (i + c.text.length) rest

lemma lastIndexOf_le {s : List Char} {c : Char} :
    ∀ {j k : Nat}, lastIndexOf s c j = some k → k ≤ j := by
  intro j
  induction j with
  | zero =>
    intro k h
    unfold lastIndexOf at h
    split at h <;> simp_all
  | succ n ih =>
    intro k h
    unfold lastIndexOf at h
    split at h
    · simp only [Option.some.injEq] at h
      omega
    · exact le_trans (ih h) (by omega)

lemma lastIndexOf_mem {s : List Char} {c : Char} :
    ∀ {j k : Nat}, lastIndexOf s c j = some k → s.get? k = some c := by
  intro j
  induction j with
  | zero =>
    intro k h
    unfold lastIndexOf at h
    split at h <;> simp_all
  | succ n ih =>
    intro k h
    unfold lastIndexOf at h
    split at h
    · simp only [Option.some.injEq] at h
      subst h
      assumption
    · exact ih h

lemma lastIndexOf_maximal {s : List Char} {c : Char} :
    ∀ {j k : Nat}, lastIndexOf s c j = some k →
      ∀ l, k < l → l ≤ j → s.get? l ≠ some c := by
  intro j
  induction j with
  | zero =>
    intro k h l hkl hl
    unfold lastIndexOf at h
    split at h <;> simp_all
  | succ n ih =>
    intro k h l hkl hl
    unfold lastIndexOf at h
    split at h
    · simp only [Option.some.injEq] at h
      omega
    · rcases Nat.lt_or_ge l (n + 1) with hc | hc
      · exact ih h l hkl (by omega)
      · have : l = n + 1 := by omega
        subst this
        assumption

lemma lastIndexOf_none {s : List Char} {c : Char} :
    ∀ {j : Nat}, lastIndexOf s c j = none → ∀ l, l ≤ j → s.get? l ≠ some c := by
  intro j
  induction j with
  | zero =>
    intro h l hl
    unfold lastIndexOf at h
    split at h <;> simp_all
  | succ n ih =>
    intro h l hl
    unfold lastIndexOf at h
    split at h
    · simp_all
    · rcases Nat.lt_or_ge l (n + 1) with hc | hc
      · exact ih h l (by omega)
      · have : l = n + 1 := by omega
        subst this
        assumption

lemma lastIndexOf_isSome {s : List Char} {c : Char} {j k : Nat}
    (hk : k ≤ j) (hc : s.get? k = some c) :
    ∃ m, lastIndexOf s c j = some m := by
  cases h : lastIndexOf s c j with
  | none => exact absurd hc (lastIndexOf_none h k hk)
  | some m => exact ⟨m, rfl⟩

lemma chunkEnd_of_last (text : List Char) (size i : Nat)
    (h1 : min (i + size) text.length = text.length) :
    chunkEnd text size i = text.length := by
  unfold chunkEnd
  rw [h1, if_neg (by omega)]

lemma chunkEnd_of_none (text : List Char) (size i : Nat)
    (h1 : min (i + size) text.length < text.length)
    (h2 : lastIndexOf text '\n' (min (i + size) text.length) = none) :
    chunkEnd text size i = min (i + size) text.length := by
  unfold chunkEnd
  rw [if_pos h1, h2]

lemma chunkEnd_of_some_cut (text : List Char) (size i ln : Nat)
    (h1 : min (i + size) text.length < text.length)
    (h2 : lastIndexOf text '\n' (min (i + size) text.length) = some ln)
    (h3 : 10 * i + 9 * size < 10 * ln) :
    chunkEnd text size i = ln := by
  unfold chunkEnd
  rw [if_pos h1, h2]
  simp only [h3, if_true]

lemma chunkEnd_of_some_hard (text : List Char) (size i ln : Nat)
    (h1 : min (i + size) text.length < text.length)
    (h2 : lastIndexOf text '\n' (min (i + size) text.length) = some ln)
    (h3 : ¬ 10 * i + 9 * size < 10 * ln) :
    chunkEnd text size i = min (i + size) text.length := by
  unfold chunkEnd
  rw [if_pos h1, h2]
  simp only [h3, if_false]

lemma chunkEnd_bounds {text : List Char} {size i : Nat} (hs : 0 < size)
    (hi : i < text.length) :
    i < chunkEnd text size i ∧ chunkEnd text size i ≤ text.length ∧
      chunkEnd text size i ≤ i + size := by
  by_cases he : min (i + size) text.length < text.length
  · cases hln : lastIndexOf text '\n' (min (i + size) text.length) with
    | none =>
      rw [chunkEnd_of_none text size i he hln]
      refine ⟨by omega, by omega, by omega⟩
    | some ln =>
      have hle := lastIndexOf_le hln
      by_cases hc : 10 * i + 9 * size < 10 * ln
      · rw [chunkEnd_of_some_cut text size i ln he hln hc]
        refine ⟨by omega, by omega, by omega⟩
      · rw [chunkEnd_of_some_hard text size i ln he hln hc]
        refine ⟨by omega, by omega, by omega⟩
  · have he' : min (i + size) text.length = text.length := by omega
    rw [chunkEnd_of_last text size i he']
    refine ⟨by omega, by omega, by omega⟩

lemma jsSlice_length {s : List Char} {a b : Nat} (hab : a ≤ b)
    (hb : b ≤ s.length) : (jsSlice s a b).length = b - a := by
  simp only [jsSlice, List.length_drop, List.length_take]
  omega

lemma jsSlice_append_drop {s : List Char} {a b : Nat} (hab : a ≤ b)
    (hb : b ≤ s.length) : jsSlice s a b ++ s.drop b = s.drop a := by
  unfold jsSlice
  conv_rhs => rw [← List.take_append_drop b s]
  rw [List.drop_append_eq_append_drop]
  have h1 : (s.take b).length = b := by
    simp only [List.length_take]
    omega
  rw [h1]
  have h2 : a - b = 0 := by omega
  rw [h2, List.drop_zero]

lemma createChunksGo_fuel {text : List Char} {size : Nat} (hs : 0 < size) :
    ∀ fuel fuel' i, text.length - i ≤ fuel → text.length - i ≤ fuel' →
      createChunksGo text size fuel i = createChunksGo text size fuel' i := by
  intro fuel
  induction fuel with
  | zero =>
    intro fuel' i h h'
    cases fuel' with
    | zero => rfl
    | succ m =>
      unfold createChunksGo
      rw [if_neg (by omega)]
  | succ n ih =>
    intro fuel' i h h'
    by_cases hi : i < text.length
    · cases fuel' with
      | zero => omega
      | succ m =>
        unfold createChunksGo
        rw [if_pos hi, if_pos hi]
        have hb := chunkEnd_bounds hs hi
        have := ih m (chunkEnd text size i) (by omega) (by omega)
        rw [this]
    · cases fuel' with
      | zero =>
        unfold createChunksGo
        rw [if_neg hi]
      | succ m =>
        unfold createChunksGo
        rw [if_neg hi, if_neg hi]

lemma createChunksGo_spec {text : List Char} {size : Nat} (hs : 0 < size) :
    ∀ fuel i, text.length - i ≤ fuel →
      (((createChunksGo text size fuel i).map Chunk.text).flatten = text.drop i)
      ∧ contiguousFrom i (createChunksGo text size fuel i)
      ∧ ∀ c ∈ createChunksGo text size fuel i,
          c.text.length ≤ size ∧ 0 < c.text.length := by
  intro fuel
  induction fuel with
  | zero =>
    intro i h
    have hd : text.drop i = [] := List.drop_eq_nil_of_le (by omega)
    simp [createChunksGo, contiguousFrom, hd]
  | succ n ih =>
    intro i h
    by_cases hi : i < text.length
    · have hb := chunkEnd_bounds hs hi
      obtain ⟨h1, h2, h3⟩ := ih (chunkEnd text size i) (by omega)
      have hlen : (jsSlice text i (chunkEnd text size i)).length
          = chunkEnd text size i - i := jsSlice_length (by omega) (by omega)
      unfold createChunksGo
      rw [if_pos hi]
      refine ⟨?_, ?_, ?_⟩
      · rw [List.map_cons, List.flatten_cons, h1]
        exact jsSlice_append_drop (by omega) (by omega)
      · refine ⟨rfl, ?_⟩
        have : i + (jsSlice text i (chunkEnd text size i)).length
            = chunkEnd text size i := by omega
        simpa [this] using h2
      · intro c hc
        rcases List.mem_cons.mp hc with hc | hc
        · subst hc
          constructor
          · simpa [hlen] using (by omega : chunkEnd text size i - i ≤ size)
          · simpa [hlen] using (by omega : 0 < chunkEnd text size i - i)
        · exact h3 c hc
    · have hd : text.drop i = [] := List.drop_eq_nil_of_le (by omega)
      unfold createChunksGo
      rw [if_neg hi]
      simp [contiguousFrom, hd]

lemma contiguousFrom_ge :
    ∀ {cs : List Chunk} {i : Nat}, contiguousFrom i cs →
      ∀ c ∈ cs, i ≤ c.startIndex := by
  intro cs
  induction cs with
  | nil => intro i _ c hc; cases hc
  | cons a l ih =>
    intro i h c hc
    obtain ⟨ha, hl⟩ := h
    rcases List.mem_cons.mp hc with hc | hc
    · subst hc; omega
    · have := ih hl c hc
      omega

lemma contiguousFrom_pairwise :
    ∀ {cs : List Chunk} {i : Nat}, contiguousFrom i cs →
      (∀ c ∈ cs, 0 < c.text.length) →
      cs.Pairwise fun a b => a.startIndex < b.startIndex := by
  intro cs
  induction cs with
  | nil => intro i _ _; exact List.Pairwise.nil
  | cons a l ih =>
    intro i h hpos
    obtain ⟨ha, hl⟩ := h
    refine List.Pairwise.cons ?_ (ih hl fun c hc => hpos c (List.mem_cons_of_mem _ hc))
    intro b hb
    have h1 := contiguousFrom_ge hl b hb
    have h2 := hpos a (List.mem_cons_self _ _)
    omega

lemma contiguousFrom_get :
    ∀ {cs : List Chunk} {i : Nat}, contiguousFrom i cs →
      ∀ j (hj : j < cs.length),
        (cs.get ⟨j, hj⟩).startIndex
          = i + (((cs.take j).map fun c => c.text.length).sum) := by
  intro cs
  induction cs with
  | nil => intro i _ j hj; cases hj
  | cons a l ih =>
    intro i h j hj
    obtain ⟨ha, hl⟩ := h
    cases j with
    | zero => simpa using ha
    | succ m =>
      have := ih hl m (by simpa using Nat.lt_of_succ_lt_succ hj)
      simp only [List.get_cons_succ, List.take_succ_cons, List.map_cons,
        List.sum_cons] at this ⊢
      omega

/-- C1: for every text and positive maxSize, concatenating in order the
text fields of the chunks returned by `createChunks` reconstructs the text
exactly, each startIndex equals the offset of the first character of the
chunk (the sum of the lengths of the preceding chunks), and the chunks are
ordered by startIndex strictly ascending, hence non-overlapping and
contiguous. -/
theorem C1_chunk_coverage (text : List Char) (maxSize : Nat)
    (h : 0 < maxSize) :
    ((createChunks text maxSize).map Chunk.text).flatten = text
    ∧ (∀ j (hj : j < (createChunks text maxSize).length),
        ((createChunks text maxSize).get ⟨j, hj⟩).startIndex
          = (((createChunks text maxSize).take j).map fun c =>
              c.text.length).sum)
    ∧ (createChunks text maxSize).Pairwise
        fun a b => a.startIndex < b.startIndex := by
  obtain ⟨h1, h2, h3⟩ := @createChunksGo_spec text maxSize h text.length 0 (by omega)
  refine ⟨by simpa using h1, ?_, ?_⟩
  · intro j hj
    simpa using contiguousFrom_get h2 j hj
  · exact contiguousFrom_pairwise h2 fun c hc => (h3 c hc).2

theorem C1_chunk_coverage_witness :
    ((createChunks ("hello\nworld".toList) 4).map Chunk.text).flatten
      = "hello\nworld".toList :=
  (C1_chunk_coverage ("hello\nworld".toList) 4 (by decide)).1

/-- C7: for every text and positive maxSize, every chunk returned by
`createChunks` has text of length at most maxSize. -/
theorem C7_chunk_size_bound (text : List Char) (maxSize : Nat)
    (h : 0 < maxSize) :
    ∀ c ∈ createChunks text maxSize, c.text.length ≤ maxSize := by
  intro c hc
  exact ((@createChunksGo_spec text maxSize h text.length 0 (by omega)).2.2 c hc).1

theorem C7_chunk_size_bound_witness :
    (Chunk.mk ("he".toList) 0).text.length ≤ 2 :=
  C7_chunk_size_bound ("hell".toList) 2 (by decide) ⟨"he".toList, 0⟩
    (by decide)

/-- C10: for every text and positive maxSize, each loop iteration of
`createChunks` strictly advances the cursor (the chosen chunk end is
strictly greater than the cursor), so the loop terminates: any fuel of at
least `text.length` iterations reaches the natural exit and yields the
same chunk list, making `createChunks` total. -/
theorem C10_segmenter_terminates (text : List Char) (maxSize : Nat)
    (h : 0 < maxSize) :
    (∀ i, i < text.length → i < chunkEnd text maxSize i)
    ∧ ∀ fuel, text.length ≤ fuel →
        createChunksGo text maxSize fuel 0 = createChunks text maxSize := by
  constructor
  · intro i hi
    exact (chunkEnd_bounds h hi).1
  · intro fuel hf
    exact createChunksGo_fuel h fuel text.length 0 (by omega) (by omega)

theorem C10_segmenter_terminates_witness :
    createChunksGo ("abcd".toList) 2 10 0 = createChunks ("abcd".toList) 2 :=
  (C10_segmenter_terminates ("abcd".toList) 2 (by decide)).2 10 (by decide)

/-- The greatest index at most `e` that holds a newline: the declarative
description of the index found by searching backward from `e`, that is of
`text.lastIndexOf('\n', e)`. -/
def lastNewlineAtMost (s : List Char) (e ln : Nat) : Prop :=
  ln ≤ e ∧ s.get? ln = some '\n' ∧
    ∀ l, ln < l → l ≤ e → s.get? l ≠ some '\n'

lemma lastIndexOf_of_lastNewlineAtMost {s : List Char} {e ln : Nat}
    (h : lastNewlineAtMost s e ln) : lastIndexOf s '\n' e = some ln := by
  obtain ⟨h1, h2, h3⟩ := h
  obtain ⟨m, hm⟩ := lastIndexOf_isSome h1 h2
  rcases Nat.lt_trichotomy m ln with hc | hc | hc
  · exact absurd h2 (lastIndexOf_maximal hm ln hc h1)
  · rw [hm, hc]
  · exact absurd (lastIndexOf_mem hm) (h3 m hc (lastIndexOf_le hm))

/-- C6 counterexample: text of 15 characters with its only newline at
index 9, maxSize 10, cursor 0.  Searching backward from the candidate end
10 finds the newline at index 9, which lies exactly at
`cursor + 0.9 * maxSize = 9` (so at or after it, as the claim requires for
a cut), yet the code cuts at the hard boundary 10, because its test is the
strict `lastNewline > i + size * 0.9`. -/
theorem C6_cut_rule_counterexample :
    lastIndexOf ("aaaaaaaaa\naaaaa".toList) '\n' (0 + 10) = some 9
    ∧ 10 * 0 + 9 * 10 ≤ 10 * 9
    ∧ chunkEnd ("aaaaaaaaa\naaaaa".toList) 10 0 = 0 + 10 := by
  refine ⟨by decide, by decide, by decide⟩

/-- C6 amended: whenever the candidate end `cursor + maxSize` is strictly
before the end of the text, the Segmenter cuts at the nearest line break
found searching backward from the candidate end if and only if that line
break lies strictly after `cursor + 0.9 * maxSize` (not merely at or after
it); otherwise it cuts at the hard boundary `cursor + maxSize`. -/
theorem C6_cut_rule (text : List Char) (size i : Nat) (hs : 0 < size)
    (hlt : i + size < text.length) :
    (∀ ln, lastNewlineAtMost text (i + size) ln →
      ((10 * i + 9 * size < 10 * ln → chunkEnd text size i = ln)
       ∧ (10 * ln ≤ 10 * i + 9 * size →
           chunkEnd text size i = i + size)))
    ∧ ((∀ l, l ≤ i + size → text.get? l ≠ some '\n') →
        chunkEnd text size i = i + size) := by
  have hmin : min (i + size) text.length = i + size := by omega
  have he : min (i + size) text.length < text.length := by omega
  constructor
  · intro ln hln
    have hidx : lastIndexOf text '\n' (min (i + size) text.length) = some ln := by
      rw [hmin]
      exact lastIndexOf_of_lastNewlineAtMost hln
    constructor
    · intro hcut
      exact chunkEnd_of_some_cut text size i ln he hidx hcut
    · intro hhard
      rw [chunkEnd_of_some_hard text size i ln he hidx (by omega)]
      omega
  · intro hno
    cases hidx : lastIndexOf text '\n' (min (i + size) text.length) with
    | none =>
      rw [chunkEnd_of_none text size i he hidx]
      omega
    | some m =>
      have h1 := lastIndexOf_le hidx
      have h2 := lastIndexOf_mem hidx
      rw [hmin] at h1
      exact absurd h2 (hno m h1)

theorem C6_cut_rule_witness :
    chunkEnd ("aaaaaaaaaaaaaaaaaaa\naaaaaaaaaa".toList) 20 0 = 19 :=
  ((C6_cut_rule ("aaaaaaaaaaaaaaaaaaa\naaaaaaaaaa".toList) 20 0 (by decide)
      (by decide)).1 19
    ⟨by decide, by decide, fun l h1 h2 => by interval_cases l <;> decide⟩).1
    (by decide)

/-- Length of the maximal leading run of ASCII digits (what the greedy
`\d+` of the JavaScript engine consumes). -/
def digitRun : List Char → Nat
  | [] => 0
  | c :: cs => if c.isDigit then digitRun cs + 1 else 0

/-- Attempt of the regex `\[P(\d+)\]` at the head of `s`: on success,
the full matched string.  Backtracking the greedy `\d+` can never help
because every shorter digit run is followed by a digit, not by `]`. -/
def matchMarkerAt (s : List Char) : Option (List Char) :=
  match s with
  | a :: b :: rest =>
    if a = '[' ∧ b = 'P' ∧ 0 < digitRun rest ∧
        rest.get? (digitRun rest) = some ']' then
      some ('[' :: 'P' :: rest.take (digitRun rest + 1))
    else none
  | _ => none

/-- Models `[...textBefore.matchAll(/\[P(\d+)\]/g)]` (src/App.tsx line
181) with an explicit fuel bound: all matches of the page-marker pattern
with their positions, scanning left to right and resuming after the end
of each match, exactly as the JavaScript engine advances `lastIndex`.
Fuel `s.length` is sufficient since each step consumes at least one
character. -/
def scanMarkersGo : Nat → List Char → Nat → List (Nat × List Char)
  | 0, _, _ => []
  | _, [], _ => []
  | fuel + 1, c :: cs, p =>
    match matchMarkerAt (c :: cs) with
    | some m =>
      (p, m) :: scanMarkersGo fuel (cs.drop (m.length - 1)) (p + m.length)
    | none => scanMarkersGo fuel cs (p + 1)

def scanMarkers (s : List Char) : List (Nat × List Char) :=
  scanMarkersGo s.length s 0

/-- The continuation annotation built at src/App.tsx line 184. -/
def contextNote (marker : List Char) : List Char :=
  "(Context: Continued from ".toList ++ marker ++ ")\n".toList

/-- Models the context stitching inside the chunk loop of `handleAnalyze`
(src/App.tsx lines 175-186): chunk index 0 is sent unmodified; a later
chunk is prefixed with a continuation note naming the last page marker
occurring in the full text before its start offset, when one exists. -/
def annotate (fullText : List Char) (i : Nat) (chunkText : List Char)
    (startIndex : Nat) : List Char :=
  if 0 < i then
    match (scanMarkers (fullText.take startIndex)).getLast? with
    | some pm => contextNote pm.2 ++ chunkText
    | none => chunkText
  else chunkText

/-- `m` is a page-marker string: `[P` followed by at least one digit and
a closing `]`. -/
def isMarkerStr (m : List Char) : Prop :=
  ∃ ds : List Char, ds ≠ [] ∧ (∀ c ∈ ds, c.isDigit = true) ∧
    m = '[' :: 'P' :: (ds ++ [']'])

/-- The marker string `m` occurs in `s` at position `p`, lying entirely
inside `s`. -/
def markerOccursAt (s : List Char) (p : Nat) (m : List Char) : Prop :=
  isMarkerStr m ∧ (s.drop p).take m.length = m

lemma digitRun_get {rest : List Char} :
    ∀ {j : Nat}, j < digitRun rest →
      ∃ c, rest.get? j = some c ∧ c.isDigit = true := by
  induction rest with
  | nil => intro j h; simp [digitRun] at h
  | cons c cs ih =>
    intro j h
    unfold digitRun at h
    by_cases hc : c.isDigit
    · rw [if_pos hc] at h
      cases j with
      | zero => exact ⟨c, rfl, hc⟩
      | succ n => exact ih (by omega)
    · rw [if_neg hc] at h
      omega

lemma digitRun_take {rest : List Char} :
    ∀ c ∈ rest.take (digitRun rest), c.isDigit = true := by
  induction rest with
  | nil => intro c hc; simp at hc
  | cons a cs ih =>
    intro c hc
    unfold digitRun at hc
    by_cases ha : a.isDigit
    · rw [if_pos ha] at hc
      rw [List.take_succ_cons] at hc
      rcases List.mem_cons.mp hc with hc | hc
      · subst hc; exact ha
      · exact ih c hc
    · rw [if_neg ha] at hc
      simp at hc

lemma digitRun_eq {ds : List Char} :
    ∀ {rest : List Char}, (∀ c ∈ ds, c.isDigit = true) →
      rest.take (ds.length + 1) = ds ++ [']'] → digitRun rest = ds.length := by
  induction ds with
  | nil =>
    intro rest _ h
    cases rest with
    | nil => simp at h
    | cons r rs =>
      simp only [List.length_nil, Nat.zero_add, List.take_succ_cons,
        List.take_zero, List.nil_append, List.cons.injEq] at h
      obtain ⟨hr, -⟩ := h
      subst hr
      simp [digitRun]
  | cons d ds' ih =>
    intro rest hd h
    cases rest with
    | nil => simp at h
    | cons r rs =>
      simp only [List.length_cons, List.take_succ_cons, List.cons_append,
        List.cons.injEq] at h
      obtain ⟨hr, hrs⟩ := h
      have hdd : r.isDigit = true := by
        rw [hr]
        exact hd d (List.mem_cons_self _ _)
      unfold digitRun
      rw [if_pos hdd, ih (fun c hc => hd c (List.mem_cons_of_mem _ hc)) hrs,
        List.length_cons]

lemma matchMarkerAt_cons_cons (a b : Char) (rest : List Char) :
    matchMarkerAt (a :: b :: rest) =
      if a = '[' ∧ b = 'P' ∧ 0 < digitRun rest ∧
          rest.get? (digitRun rest) = some ']' then
        some ('[' :: 'P' :: rest.take (digitRun rest + 1))
      else none := rfl

lemma matchMarkerAt_iff {s m : List Char} :
    matchMarkerAt s = some m ↔
      ∃ rest, s = '[' :: 'P' :: rest ∧ 0 < digitRun rest ∧
        rest.get? (digitRun rest) = some ']' ∧
        m = '[' :: 'P' :: rest.take (digitRun rest + 1) := by
  constructor
  · intro h
    cases s with
    | nil => cases h
    | cons a t =>
      cases t with
      | nil => cases h
      | cons b rest =>
        rw [matchMarkerAt_cons_cons] at h
        by_cases hc : a = '[' ∧ b = 'P' ∧ 0 < digitRun rest ∧
            rest.get? (digitRun rest) = some ']'
        · rw [if_pos hc] at h
          obtain ⟨ha, hb, h1, h2⟩ := hc
          subst ha
          subst hb
          simp only [Option.some.injEq] at h
          exact ⟨rest, rfl, h1, h2, h.symm⟩
        · rw [if_neg hc] at h
          cases h
  · rintro ⟨rest, hs, h1, h2, hm⟩
    subst hs
    subst hm
    rw [matchMarkerAt_cons_cons, if_pos ⟨rfl, rfl, h1, h2⟩]

lemma markerOccursAt_nil {j : Nat} {m : List Char} :
    ¬ markerOccursAt [] j m := by
  rintro ⟨⟨ds, hne, hdig, hm⟩, htake⟩
  subst hm
  simp at htake

lemma markerOccursAt_shift {s : List Char} {c : Char} {p : Nat}
    {m : List Char} :
    markerOccursAt (c :: s) (p + 1) m ↔ markerOccursAt s p m := by
  unfold markerOccursAt
  rw [List.drop_succ_cons]

lemma markerOccursAt_drop {s : List Char} {p : Nat} {m : List Char} :
    markerOccursAt s p m ↔ markerOccursAt (s.drop p) 0 m := by
  unfold markerOccursAt
  rw [List.drop_zero]

lemma matchMarkerAt_sound {s m : List Char}
    (h : matchMarkerAt s = some m) : markerOccursAt s 0 m := by
  obtain ⟨rest, hs, h1, h2, hm⟩ := matchMarkerAt_iff.mp h
  have hlen : digitRun rest + 1 ≤ rest.length := by
    by_contra hc
    rw [List.get?_eq_none.mpr (by omega)] at h2
    cases h2
  have h2' : rest[digitRun rest]? = some ']' := by
    rw [← List.get?_eq_getElem?]
    exact h2
  have htk : rest.take (digitRun rest + 1)
      = rest.take (digitRun rest) ++ [']'] := by
    rw [List.take_succ, h2']
    rfl
  constructor
  · refine ⟨rest.take (digitRun rest), ?_, ?_, ?_⟩
    · have : (rest.take (digitRun rest)).length = digitRun rest := by
        rw [List.length_take]
        omega
      intro hnil
      rw [hnil] at this
      simp at this
      omega
    · exact digitRun_take
    · rw [hm, htk]
  · subst hs
    subst hm
    rw [List.drop_zero]
    have hlm : ('[' :: 'P' :: rest.take (digitRun rest + 1)).length
        = digitRun rest + 3 := by
      simp only [List.length_cons, List.length_take]
      omega
    rw [hlm]
    simp only [List.take_succ_cons, List.cons.injEq, true_and]

lemma matchMarkerAt_length {s m : List Char}
    (h : matchMarkerAt s = some m) : 4 ≤ m.length := by
  obtain ⟨rest, hs, h1, h2, hm⟩ := matchMarkerAt_iff.mp h
  have hlen : digitRun rest + 1 ≤ rest.length := by
    by_contra hc
    rw [List.get?_eq_none.mpr (by omega)] at h2
    cases h2
  subst hm
  simp only [List.length_cons, List.length_take]
  omega

lemma matchMarkerAt_complete {s m : List Char}
    (h : markerOccursAt s 0 m) : matchMarkerAt s = some m := by
  obtain ⟨⟨ds, hne, hdig, hm⟩, htake⟩ := h
  rw [List.drop_zero] at htake
  subst hm
  have hlm : ('[' :: 'P' :: (ds ++ [']'])).length = ds.length + 3 := by
    simp
  rw [hlm] at htake
  cases s with
  | nil => simp at htake
  | cons a t =>
    cases t with
    | nil =>
      simp only [List.take_succ_cons, List.take_nil, List.cons.injEq] at htake
      obtain ⟨-, htake⟩ := htake
      simp at htake
    | cons b rest =>
      simp only [List.take_succ_cons, List.cons.injEq] at htake
      obtain ⟨ha, hb, hrest⟩ := htake
      subst ha
      subst hb
      have hdr : digitRun rest = ds.length := digitRun_eq hdig hrest
      have hget : rest.get? (digitRun rest) = some ']' := by
        rw [hdr]
        have hg1 : (rest.take (ds.length + 1)).get? ds.length = some ']' := by
          rw [hrest]
          exact List.get?_concat_length ds ']'
        rw [List.get?_take (by omega)] at hg1
        exact hg1
      have hpos : 0 < digitRun rest := by
        rw [hdr]
        exact List.length_pos.mpr hne
      rw [matchMarkerAt_cons_cons, if_pos ⟨rfl, rfl, hpos, hget⟩, hdr, hrest]

lemma markerOccursAt_unique {s : List Char} {p : Nat} {m₁ m₂ : List Char}
    (h1 : markerOccursAt s p m₁) (h2 : markerOccursAt s p m₂) :
    m₁ = m₂ := by
  have e1 := matchMarkerAt_complete (markerOccursAt_drop.mp h1)
  have e2 := matchMarkerAt_complete (markerOccursAt_drop.mp h2)
  rw [e1] at e2
  exact Option.some.inj e2

lemma markerOccursAt_head {s : List Char} {p : Nat} {m : List Char}
    (h : markerOccursAt s p m) : s.get? p = some '[' := by
  obtain ⟨⟨ds, hne, hdig, hm⟩, htake⟩ := h
  subst hm
  cases hd : s.drop p with
  | nil => rw [hd] at htake; simp at htake
  | cons x xs =>
    rw [hd] at htake
    simp only [List.length_cons, List.take_succ_cons, List.cons.injEq]
      at htake
    obtain ⟨hx, -⟩ := htake
    have h0 : (s.drop p).get? 0 = some '[' := by
      rw [hd, hx]
      rfl
    rw [List.get?_drop] at h0
    simpa using h0

lemma isMarkerStr_get_ne {m : List Char} (h : isMarkerStr m) :
    ∀ j, 0 < j → j < m.length → m.get? j ≠ some '[' := by
  obtain ⟨ds, hne, hdig, hm⟩ := h
  subst hm
  intro j hj1 hj2 hget
  cases j with
  | zero => omega
  | succ j' =>
    rw [List.get?_cons_succ] at hget
    cases j' with
    | zero => simp at hget
    | succ j'' =>
      rw [List.get?_cons_succ] at hget
      have hlen : j'' < ds.length + 1 := by
        simp only [List.length_cons, List.length_append] at hj2
        simp at hj2
        omega
      rcases Nat.lt_or_ge j'' ds.length with hc | hc
      · rw [List.get?_append hc] at hget
        have hmem := List.get?_mem hget
        have := hdig _ hmem
        simp at this
      · have he : j'' = ds.length := by omega
        subst he
        rw [List.get?_concat_length] at hget
        simp at hget

lemma matchMarkerAt_no_inner {s m : List Char}
    (h : matchMarkerAt s = some m) :
    ∀ j m', 0 < j → j < m.length → ¬ markerOccursAt s j m' := by
  intro j m' hj1 hj2 hocc
  have hsound := matchMarkerAt_sound h
  have hstr : isMarkerStr m := hsound.1
  have htake : s.take m.length = m := by
    have := hsound.2
    rwa [List.drop_zero] at this
  have hhead := markerOccursAt_head hocc
  have hmj : m.get? j = s.get? j := by
    rw [← htake]
    exact List.get?_take hj2
  exact isMarkerStr_get_ne hstr j hj1 hj2 (hmj.trans hhead)

lemma scanMarkersGo_zero (s : List Char) (p : Nat) :
    scanMarkersGo 0 s p = [] := by
  cases s <;> rfl

lemma scanMarkersGo_nil (fuel p : Nat) :
    scanMarkersGo fuel [] p = [] := by
  cases fuel <;> rfl

lemma scanMarkersGo_cons_some (fuel : Nat) (c : Char) (cs : List Char)
    (p : Nat) (m : List Char) (hm : matchMarkerAt (c :: cs) = some m) :
    scanMarkersGo (fuel + 1) (c :: cs) p
      = (p, m) :: scanMarkersGo fuel (cs.drop (m.length - 1))
          (p + m.length) := by
  show (match matchMarkerAt (c :: cs) with
    | some m =>
      (p, m) :: scanMarkersGo fuel (cs.drop (m.length - 1)) (p + m.length)
    | none => scanMarkersGo fuel cs (p + 1)) = _
  rw [hm]

lemma scanMarkersGo_cons_none (fuel : Nat) (c : Char) (cs : List Char)
    (p : Nat) (hm : matchMarkerAt (c :: cs) = none) :
    scanMarkersGo (fuel + 1) (c :: cs) p = scanMarkersGo fuel cs (p + 1) := by
  show (match matchMarkerAt (c :: cs) with
    | some m =>
      (p, m) :: scanMarkersGo fuel (cs.drop (m.length - 1)) (p + m.length)
    | none => scanMarkersGo fuel cs (p + 1)) = _
  rw [hm]

lemma scanMarkersGo_sound :
    ∀ fuel (s : List Char) (p q : Nat) (m : List Char),
      (q, m) ∈ scanMarkersGo fuel s p →
      ∃ j, q = p + j ∧ markerOccursAt s j m := by
  intro fuel
  induction fuel with
  | zero =>
    intro s p q m h
    rw [scanMarkersGo_zero] at h
    cases h
  | succ n ih =>
    intro s p q m h
    cases s with
    | nil =>
      rw [scanMarkersGo_nil] at h
      cases h
    | cons c cs =>
      cases hm : matchMarkerAt (c :: cs) with
      | none =>
        rw [scanMarkersGo_cons_none _ _ _ _ hm] at h
        obtain ⟨j, hq, hocc⟩ := ih cs (p + 1) q m h
        exact ⟨j + 1, by omega, markerOccursAt_shift.mpr hocc⟩
      | some m₀ =>
        rw [scanMarkersGo_cons_some _ _ _ _ _ hm] at h
        rcases List.mem_cons.mp h with h | h
        · rw [Prod.mk.injEq] at h
          obtain ⟨hq, hm'⟩ := h
          subst hm'
          exact ⟨0, by omega, matchMarkerAt_sound hm⟩
        · obtain ⟨j, hq, hocc⟩ := ih _ _ _ _ h
          have h4 := matchMarkerAt_length hm
          refine ⟨m₀.length + j, by omega, ?_⟩
          obtain ⟨hstr, htk⟩ := hocc
          refine ⟨hstr, ?_⟩
          have hdrop : (c :: cs).drop (m₀.length + j)
              = (cs.drop (m₀.length - 1)).drop j := by
            have e : m₀.length + j = (m₀.length - 1 + j) + 1 := by omega
            rw [e, List.drop_succ_cons, List.drop_drop]
          rw [hdrop]
          exact htk

lemma scanMarkersGo_complete :
    ∀ fuel (s : List Char), s.length ≤ fuel → ∀ (p j : Nat) (m : List Char),
      markerOccursAt s j m → (p + j, m) ∈ scanMarkersGo fuel s p := by
  intro fuel
  induction fuel with
  | zero =>
    intro s hf p j m hocc
    have hs : s = [] := List.length_eq_zero.mp (by omega)
    subst hs
    exact absurd hocc markerOccursAt_nil
  | succ n ih =>
    intro s hf p j m hocc
    cases s with
    | nil => exact absurd hocc markerOccursAt_nil
    | cons c cs =>
      have hcs : cs.length ≤ n := by
        simp only [List.length_cons] at hf
        omega
      cases hm : matchMarkerAt (c :: cs) with
      | none =>
        rw [scanMarkersGo_cons_none _ _ _ _ hm]
        cases j with
        | zero =>
          have := matchMarkerAt_complete hocc
          rw [hm] at this
          cases this
        | succ j' =>
          have hrec := ih cs hcs (p + 1) j' m (markerOccursAt_shift.mp hocc)
          have e : p + (j' + 1) = (p + 1) + j' := by omega
          rw [e]
          exact hrec
      | some m₀ =>
        rw [scanMarkersGo_cons_some _ _ _ _ _ hm]
        have h4 := matchMarkerAt_length hm
        by_cases hj0 : j = 0
        · subst hj0
          have heq : m = m₀ := markerOccursAt_unique hocc (matchMarkerAt_sound hm)
          subst heq
          rw [Nat.add_zero]
          exact List.mem_cons_self _ _
        · rcases Nat.lt_or_ge j m₀.length with hj | hj
          · exact absurd hocc (matchMarkerAt_no_inner hm j m (by omega) hj)
          · have hocc' : markerOccursAt (cs.drop (m₀.length - 1))
                (j - m₀.length) m := by
              obtain ⟨hstr, htk⟩ := hocc
              refine ⟨hstr, ?_⟩
              have hdrop : (cs.drop (m₀.length - 1)).drop (j - m₀.length)
                  = (c :: cs).drop j := by
                rw [List.drop_drop]
                have e : j = (j - m₀.length + (m₀.length - 1)) + 1 := by omega
                conv_rhs => rw [e]
                rw [List.drop_succ_cons]
                congr 1
                omega
              rw [hdrop]
              exact htk
            have hlen' : (cs.drop (m₀.length - 1)).length ≤ n := by
              simp only [List.length_drop]
              omega
            have hrec := ih _ hlen' (p + m₀.length) (j - m₀.length) m hocc'
            have e : p + j = (p + m₀.length) + (j - m₀.length) := by omega
            rw [e]
            exact List.mem_cons_of_mem _ hrec

lemma scanMarkersGo_lb {fuel : Nat} {s : List Char} {p q : Nat}
    {m : List Char} (h : (q, m) ∈ scanMarkersGo fuel s p) : p ≤ q := by
  obtain ⟨j, hq, -⟩ := scanMarkersGo_sound fuel s p q m h
  omega

lemma scanMarkersGo_pairwise :
    ∀ fuel (s : List Char) (p : Nat),
      (scanMarkersGo fuel s p).Pairwise fun a b => a.1 < b.1 := by
  intro fuel
  induction fuel with
  | zero =>
    intro s p
    rw [scanMarkersGo_zero]
    exact List.Pairwise.nil
  | succ n ih =>
    intro s p
    cases s with
    | nil =>
      rw [scanMarkersGo_nil]
      exact List.Pairwise.nil
    | cons c cs =>
      cases hm : matchMarkerAt (c :: cs) with
      | none =>
        rw [scanMarkersGo_cons_none _ _ _ _ hm]
        exact ih cs (p + 1)
      | some m₀ =>
        rw [scanMarkersGo_cons_some _ _ _ _ _ hm]
        refine List.Pairwise.cons ?_ (ih _ _)
        intro x hx
        have hlb : p + m₀.length ≤ x.1 := scanMarkersGo_lb hx
        have h4 := matchMarkerAt_length hm
        omega

lemma pairwise_le_getLast {α : Type} :
    ∀ (l : List (Nat × α)) (h : l ≠ []),
      (l.Pairwise fun a b => a.1 < b.1) → ∀ x ∈ l, x.1 ≤ (l.getLast h).1 := by
  intro l
  induction l with
  | nil => intro h; exact absurd rfl h
  | cons a t ih =>
    intro h hp x hx
    cases t with
    | nil =>
      rcases List.mem_cons.mp hx with hx | hx
      · subst hx
        simp [List.getLast_singleton]
      · cases hx
    | cons b u =>
      rw [List.getLast_cons (by simp)]
      rcases List.mem_cons.mp hx with hx | hx
      · subst hx
        have hlast : (b :: u).getLast (by simp) ∈ b :: u :=
          List.getLast_mem (by simp)
        have := (List.pairwise_cons.mp hp).1 _ hlast
        omega
      · exact ih (by simp) (List.pairwise_cons.mp hp).2 x hx

lemma scanMarkers_last {s : List Char} {p : Nat} {m : List Char}
    (hocc : markerOccursAt s p m)
    (hmax : ∀ q m', markerOccursAt s q m' → q ≤ p) :
    (scanMarkers s).getLast? = some (p, m) := by
  have hmem : (p, m) ∈ scanMarkers s := by
    have := scanMarkersGo_complete s.length s le_rfl 0 p m hocc
    simpa [scanMarkers] using this
  have hne : scanMarkers s ≠ [] := by
    intro he
    rw [he] at hmem
    cases hmem
  have hpair : (scanMarkers s).Pairwise fun a b => a.1 < b.1 :=
    scanMarkersGo_pairwise s.length s 0
  obtain ⟨j, hq, hocc'⟩ :=
    scanMarkersGo_sound s.length s 0 ((scanMarkers s).getLast hne).1
      ((scanMarkers s).getLast hne).2 (List.getLast_mem hne)
  have hle1 : j ≤ p := hmax j _ hocc'
  have hle2 : p ≤ ((scanMarkers s).getLast hne).1 :=
    pairwise_le_getLast _ hne hpair _ hmem
  have hjp : ((scanMarkers s).getLast hne).1 = p := by omega
  have hmm : ((scanMarkers s).getLast hne).2 = m := by
    apply markerOccursAt_unique _ hocc
    have : j = p := by omega
    rw [← this]
    exact hocc'
  rw [List.getLast?_eq_getLast _ hne]
  have heq : ((scanMarkers s).getLast hne) = (p, m) := by
    rw [← hjp, ← hmm]
  rw [heq]

/-- C5: the Context Stitcher sends chunk index 0 unmodified; for a chunk
of index at least 1, when at least one `[P<number>]` marker occurs in the
full text entirely before the chunk start offset, exactly the string
`(Context: Continued from <M>)` followed by a newline is prepended, where
`<M>` is the last (rightmost) such occurrence; when no marker occurs
there, the chunk is sent unmodified.  For the full text
`[P1]\nAlpha\n[P2]\nBeta` split so that the second chunk starts right
after `[P2]`, chunk index 1 receives the annotation naming `[P2]`. -/
theorem C5_context_stitcher (fullText chunkText : List Char)
    (startIndex i : Nat) (hi : 0 < i) :
    (annotate fullText 0 chunkText startIndex = chunkText)
    ∧ (∀ p m, markerOccursAt (fullText.take startIndex) p m →
        (∀ q m', markerOccursAt (fullText.take startIndex) q m' → q ≤ p) →
        annotate fullText i chunkText startIndex
          = contextNote m ++ chunkText)
    ∧ ((∀ p m, ¬ markerOccursAt (fullText.take startIndex) p m) →
        annotate fullText i chunkText startIndex = chunkText)
    ∧ annotate ("[P1]\nAlpha\n[P2]\nBeta".toList) 1 ("\nBeta".toList) 15
      = ("(Context: Continued from [P2])\n".toList ++ "\nBeta".toList) := by
  refine ⟨rfl, ?_, ?_, by decide⟩
  · intro p m hocc hmax
    unfold annotate
    rw [if_pos hi, scanMarkers_last hocc hmax]
  · intro hno
    unfold annotate
    rw [if_pos hi]
    cases hL : (scanMarkers (fullText.take startIndex)).getLast? with
    | none => rfl
    | some pm =>
      have hne : scanMarkers (fullText.take startIndex) ≠ [] := by
        intro he
        rw [he] at hL
        cases hL
      rw [List.getLast?_eq_getLast _ hne] at hL
      injection hL with hL
      have hmem : pm ∈ scanMarkers (fullText.take startIndex) := by
        rw [← hL]
        exact List.getLast_mem hne
      obtain ⟨j, -, hocc⟩ :=
        scanMarkersGo_sound _ _ 0 pm.1 pm.2 hmem
      exact absurd hocc (hno j pm.2)

theorem C5_context_stitcher_witness :
    annotate ("[P1]\nAlpha\n[P2]\nBeta".toList) 1 ("\nBeta".toList) 15
      = ("(Context: Continued from [P2])\n".toList ++ "\nBeta".toList) :=
  (C5_context_stitcher ("[P1]\nAlpha\n[P2]\nBeta".toList) ("\nBeta".toList)
    15 1 (by decide)).2.2.2

/-- Models the runtime shape of `VerificationItem` (src/types.ts).  The
TypeScript interface declares `status : CheckStatus`, but at runtime the
items come from an unchecked `JSON.parse(...) as VerificationItem[]`
cast, so `status` is an arbitrary string, not a member of the enumeration
by construction. -/
structure VerificationItem where
  location : String
  quote_text : String
  claimed_source : String
  status : String
  notes : String
deriving DecidableEq, Inhabited

/-- The four values of the `CheckStatus` enumeration (src/types.ts). -/
def checkStatusValues : List String :=
  ["ACCURATE", "PARAPHRASED", "MISATTRIBUTED", "UNVERIFIABLE"]

/-- Models `AnalysisStats` of src/types.ts. -/
structure AnalysisStats where
  accurate : Nat
  paraphrased : Nat
  misattributed : Nat
  unverifiable : Nat
  total : Nat
deriving DecidableEq

/-- One step of the `results.forEach` loop inside the `stats` memo of
src/App.tsx (lines 63-69). -/
def statsStep (s : AnalysisStats) (r : VerificationItem) : AnalysisStats :=
  if r.status = "ACCURATE" then { s with accurate := s.accurate + 1 }
  else if r.status = "PARAPHRASED" then
    { s with paraphrased := s.paraphrased + 1 }
  else if r.status = "MISATTRIBUTED" then
    { s with misattributed := s.misattributed + 1 }
  else if r.status = "UNVERIFIABLE" then
    { s with unverifiable := s.unverifiable + 1 }
  else s

/-- Models the `stats` derivation of src/App.tsx (lines 55-71): zero
category counts and `total := results.length` as the initial value, then
a single full scan of the result list. -/
def stats (results : List VerificationItem) : AnalysisStats :=
  results.foldl statsStep
    { accurate := 0, paraphrased := 0, misattributed := 0,
      unverifiable := 0, total := results.length }

lemma statsStep_total (s : AnalysisStats) (r : VerificationItem) :
    (statsStep s r).total = s.total := by
  unfold statsStep
  split_ifs <;> rfl

lemma foldl_statsStep_total :
    ∀ (rs : List VerificationItem) (s : AnalysisStats),
      (rs.foldl statsStep s).total = s.total := by
  intro rs
  induction rs with
  | nil => intro s; rfl
  | cons r rest ih =>
    intro s
    rw [List.foldl_cons, ih, statsStep_total]

lemma statsStep_sum {r : VerificationItem}
    (h : r.status ∈ checkStatusValues) (s : AnalysisStats) :
    (statsStep s r).accurate + (statsStep s r).paraphrased
        + (statsStep s r).misattributed + (statsStep s r).unverifiable
      = s.accurate + s.paraphrased + s.misattributed + s.unverifiable
          + 1 := by
  simp only [checkStatusValues, List.mem_cons, List.not_mem_nil,
    or_false] at h
  unfold statsStep
  rcases h with h | h | h | h <;> simp [h] <;> omega

lemma foldl_statsStep_sum :
    ∀ (rs : List VerificationItem),
      (∀ r ∈ rs, r.status ∈ checkStatusValues) → ∀ s : AnalysisStats,
      (rs.foldl statsStep s).accurate + (rs.foldl statsStep s).paraphrased
          + (rs.foldl statsStep s).misattributed
          + (rs.foldl statsStep s).unverifiable
        = s.accurate + s.paraphrased + s.misattributed + s.unverifiable
            + rs.length := by
  intro rs
  induction rs with
  | nil => intro _ s; rfl
  | cons r rest ih =>
    intro h s
    rw [List.foldl_cons,
      ih (fun x hx => h x (List.mem_cons_of_mem _ hx)) (statsStep s r),
      statsStep_sum (h r (List.mem_cons_self _ _)), List.length_cons]
    omega

/-- C8: for every finite list of items whose statuses all lie in the
fixed four-value enumeration, the `stats` derivation returns `total`
equal to the length of the list and category counts summing to `total`,
by a full scan; the empty list yields all-zero stats. -/
theorem C8_stats_invariant (items : List VerificationItem)
    (h : ∀ r ∈ items, r.status ∈ checkStatusValues) :
    (stats items).total = items.length
    ∧ (stats items).accurate + (stats items).paraphrased
        + (stats items).misattributed + (stats items).unverifiable
      = (stats items).total
    ∧ stats [] = ⟨0, 0, 0, 0, 0⟩ := by
  refine ⟨foldl_statsStep_total items _, ?_, rfl⟩
  unfold stats
  rw [foldl_statsStep_total items _, foldl_statsStep_sum items h]
  simp

theorem C8_stats_invariant_witness :
    (stats [⟨"p1", "q1", "s1", "ACCURATE", "n1"⟩,
        ⟨"p2", "q2", "s2", "UNVERIFIABLE", "n2"⟩]).total = 2
    ∧ (stats [⟨"p1", "q1", "s1", "ACCURATE", "n1"⟩,
        ⟨"p2", "q2", "s2", "UNVERIFIABLE", "n2"⟩]).accurate
        + (stats [⟨"p1", "q1", "s1", "ACCURATE", "n1"⟩,
            ⟨"p2", "q2", "s2", "UNVERIFIABLE", "n2"⟩]).paraphrased
        + (stats [⟨"p1", "q1", "s1", "ACCURATE", "n1"⟩,
            ⟨"p2", "q2", "s2", "UNVERIFIABLE", "n2"⟩]).misattributed
        + (stats [⟨"p1", "q1", "s1", "ACCURATE", "n1"⟩,
            ⟨"p2", "q2", "s2", "UNVERIFIABLE", "n2"⟩]).unverifiable
      = (stats [⟨"p1", "q1", "s1", "ACCURATE", "n1"⟩,
          ⟨"p2", "q2", "s2", "UNVERIFIABLE", "n2"⟩]).total
    ∧ stats [] = ⟨0, 0, 0, 0, 0⟩ :=
  C8_stats_invariant
    [⟨"p1", "q1", "s1", "ACCURATE", "n1"⟩,
      ⟨"p2", "q2", "s2", "UNVERIFIABLE", "n2"⟩] (by decide)

/-- Models the `escape` helper of `handleExportCSV` (src/App.tsx line
210): wrap the field in double quotes, doubling every literal double
quote inside it (`str.replace(/"/g, s)` with a two-quote replacement). -/
def escape (str : String) : String :=
  "\"" ++ String.mk ((str.data.map fun c =>
    if c = '"' then ['"', '"'] else [c]).flatten) ++ "\""

/-- The fixed header cells of `handleExportCSV` (src/App.tsx line 205). -/
def csvHeaders : List String :=
  ["Location", "Quote", "Claimed Source", "Status", "Notes"]

/-- One data row of `handleExportCSV` (src/App.tsx lines 208-218): the
five item fields in fixed order, each escaped, joined with commas. -/
def csvRow (item : VerificationItem) : String :=
  String.intercalate "," [escape item.location, escape item.quote_text,
    escape item.claimed_source, escape item.status, escape item.notes]

/-- Models `handleExportCSV` (src/App.tsx lines 201-231) up to the point
where the CSV text is handed to the browser download machinery: `none`
models the early return on an empty result set (no output produced);
`some` carries the produced CSV text. -/
def handleExportCSV (results : List VerificationItem) : Option String :=
  if results.length = 0 then none
  else some (String.intercalate "\n"
    (String.intercalate "," csvHeaders :: results.map csvRow))

/-- Doubling of every double-quote character, written as direct
recursion: the statement-side description of the escaping rule. -/
def doubleQuotes : List Char → List Char
  | [] => []
  | c :: cs =>
    if c = '"' then '"' :: '"' :: doubleQuotes cs
    else c :: doubleQuotes cs

lemma doubleQuotes_cons (c : Char) (cs : List Char) :
    doubleQuotes (c :: cs)
      = if c = '"' then '"' :: '"' :: doubleQuotes cs
        else c :: doubleQuotes cs := rfl

lemma doubleQuotes_eq (l : List Char) :
    (l.map fun c => if c = '"' then ['"', '"'] else [c]).flatten
      = doubleQuotes l := by
  induction l with
  | nil => rfl
  | cons c cs ih =>
    rw [List.map_cons, List.flatten_cons, ih, doubleQuotes_cons]
    by_cases hc : c = '"'
    · rw [if_pos hc, if_pos hc]
      rfl
    · rw [if_neg hc, if_neg hc]
      rfl

lemma escape_data (str : String) :
    (escape str).data = '"' :: (doubleQuotes str.data ++ ['"']) := by
  unfold escape
  rw [String.data_append, String.data_append, doubleQuotes_eq]
  rfl

lemma csvRow_eq (item : VerificationItem) :
    csvRow item = escape item.location ++ "," ++ escape item.quote_text
      ++ "," ++ escape item.claimed_source ++ "," ++ escape item.status
      ++ "," ++ escape item.notes := by
  unfold csvRow
  rw [String.intercalate]
  rw [String.intercalate.go, String.intercalate.go, String.intercalate.go,
    String.intercalate.go, String.intercalate.go]

/-- C9: the exporter yields no output for an empty result set; for a
nonempty result set it yields the header row followed by one row per item
in result-set order, rows joined by a newline; each data row holds the
five fields in the fixed order location, quote_text, claimed_source,
status, notes, each field wrapped in double quotes with inner double
quotes doubled and nothing else changed; the notes value
`He said "stop".` exports as `"He said ""stop""."`. -/
theorem C9_csv_exporter :
    handleExportCSV [] = none
    ∧ (∀ results : List VerificationItem, results ≠ [] →
        handleExportCSV results = some (String.intercalate "\n"
          (String.intercalate "," csvHeaders :: results.map csvRow)))
    ∧ (∀ item, csvRow item
        = escape item.location ++ "," ++ escape item.quote_text ++ ","
          ++ escape item.claimed_source ++ "," ++ escape item.status
          ++ "," ++ escape item.notes)
    ∧ (∀ str, (escape str).data = '"' :: (doubleQuotes str.data ++ ['"']))
    ∧ escape ("He said \"stop\".") = "\"He said \"\"stop\"\".\""
    ∧ handleExportCSV [⟨"L", "Q", "S", "ACCURATE", "N"⟩]
      = some ("Location,Quote,Claimed Source,Status,Notes\n" ++
          "\"L\",\"Q\",\"S\",\"ACCURATE\",\"N\"") := by
  refine ⟨rfl, ?_, csvRow_eq, escape_data, by decide, by decide⟩
  intro results hne
  unfold handleExportCSV
  rw [if_neg (by simpa [List.length_eq_zero] using hne)]

theorem C9_csv_exporter_witness :
    handleExportCSV [⟨"L", "Q", "S", "ACCURATE", "N"⟩]
      = some (String.intercalate "\n"
          (String.intercalate "," csvHeaders
            :: [(⟨"L", "Q", "S", "ACCURATE", "N"⟩ : VerificationItem)].map
                csvRow)) :=
  C9_csv_exporter.2.1 [⟨"L", "Q", "S", "ACCURATE", "N"⟩] (by decide)

/-- Members of the whitespace class of JavaScript (`\s`, and the set
trimmed by `String.prototype.trim`) restricted to the ASCII characters
the pipeline can meet. -/
def isJsWhitespace (c : Char) : Bool :=
  c == ' ' || c == '\t' || c == '\n' || c == '\r' || c == '\x0b'
    || c == '\x0c'

/-- Models `text.trim()` of JavaScript. -/
def jsTrim (s : List Char) : List Char :=
  ((s.dropWhile isJsWhitespace).reverse.dropWhile isJsWhitespace).reverse

/-- Models `clean.replace(/\s*` ``` `$/, s)` with an empty replacement:
when the string ends with three backticks, remove them together with the
run of whitespace right before them; otherwise leave the string
unchanged. -/
def stripFenceEnd (s : List Char) : List Char :=
  if s.reverse.take 3 = ("```".toList) then
    ((s.reverse.drop 3).dropWhile isJsWhitespace).reverse
  else s

/-- Models `cleanJson` of the Gemini service module (lines 13-22): trim,
then strip a wrapping markdown fence (either the `json`-tagged or the
plain variant) from the front, with its trailing whitespace, and the
closing fence from the back. -/
def cleanJson (text : List Char) : List Char :=
  if (jsTrim text).take 7 = ("```json".toList) then
    stripFenceEnd (((jsTrim text).drop 7).dropWhile isJsWhitespace)
  else if (jsTrim text).take 3 = ("```".toList) then
    stripFenceEnd (((jsTrim text).drop 3).dropWhile isJsWhitespace)
  else jsTrim text

/-- The two failure modes of the adapter: the configuration failure
thrown by `getGeminiClient` on a missing key, and the rethrown failure of
the external `generateContent` call (network or authentication). -/
inductive OracleError where
  | missingKey : OracleError
  | apiFailure : OracleError
deriving DecidableEq

/-- Outcome of the external `generateContent` call: the promise either
rejects (`callFailed`) or resolves with `response.text` (an absent or
undefined text is modelled by the empty string, which the code treats
identically through its falsy check). -/
inductive OracleResponse where
  | callFailed : OracleResponse
  | ok (text : String) : OracleResponse
deriving DecidableEq

/-- Models `verifyManuscript` of the Gemini service module (lines
24-105), with the two external effects as parameters: `parse` is the
`JSON.parse(...) as VerificationItem[]` step of the JavaScript runtime
(`none` models a parse exception), and `resp` the outcome of the
external oracle call.  A missing key throws before the try block; a
rejected call is rethrown; a falsy response text yields `[]`; a parse
failure on the cleaned text yields `[]`; a successful parse is returned
as-is, with no further validation of the items. -/
def verifyManuscript
    (parse : List Char → Option (List VerificationItem))
    (apiKey : String) (resp : OracleResponse) :
    Except OracleError (List VerificationItem) :=
  if apiKey = "" then .error .missingKey
  else
    match resp with
    | .callFailed => .error .apiFailure
    | .ok jsonText =>
      if jsonText = "" then .ok []
      else
        match parse (cleanJson jsonText.data) with
        | some items => .ok items
        | none => .ok []

/-- An item as `JSON.parse` would build it from a response whose status
field holds a value outside the `CheckStatus` enumeration. -/
def bogusItem : VerificationItem :=
  ⟨"Page 1, Para 1", "quoted words", "some source", "BOGUS", "note"⟩

/-- A syntactically valid JSON oracle response carrying `bogusItem`. -/
def bogusResponseText : String :=
  "[\x7b\"location\":\"Page 1, Para 1\",\"quote_text\":\"quoted words\",\"claimed_source\":\"some source\",\"status\":\"BOGUS\",\"notes\":\"note\"\x7d]"

/-- Models the JavaScript `JSON.parse(...) as VerificationItem[]` cast on
the one response text used against C2: that text is valid JSON and parses
to exactly the single object carried by `bogusItem`. -/
def parseStub (s : List Char) : Option (List VerificationItem) :=
  if s = bogusResponseText.data then some [bogusItem] else none

/-- C2 counterexample: a JSON-parsable oracle response whose single item
carries the status `BOGUS`, outside the fixed enumeration, is returned by
`verifyManuscript` unchanged — the adapter boundary neither rejects nor
drops it, so the out-of-enumeration status enters the result set. -/
theorem C2_schema_enforcement_counterexample :
    verifyManuscript parseStub "key" (.ok bogusResponseText)
        = .ok [bogusItem]
    ∧ bogusItem.status ∉ checkStatusValues := by
  refine ⟨rfl, by decide⟩

lemma verifyManuscript_ok
    (parse : List Char → Option (List VerificationItem))
    (apiKey t : String) (hk : apiKey ≠ "") :
    verifyManuscript parse apiKey (.ok t)
      = if t = "" then .ok [] else
          match parse (cleanJson t.data) with
          | some items => .ok items
          | none => .ok [] := by
  unfold verifyManuscript
  rw [if_neg hk]

lemma verifyManuscript_callFailed
    (parse : List Char → Option (List VerificationItem))
    (apiKey : String) (hk : apiKey ≠ "") :
    verifyManuscript parse apiKey .callFailed = .error .apiFailure := by
  unfold verifyManuscript
  rw [if_neg hk]

/-- C2 amended: the adapter declares a response schema to the oracle
(fields and the status enumeration) but performs no validation of its
own: every response that parses as JSON is returned exactly as parsed, so
items missing fields or carrying statuses outside the enumeration are not
dropped at the adapter boundary. -/
theorem C2_adapter_passthrough
    (parse : List Char → Option (List VerificationItem))
    (apiKey t : String) (items : List VerificationItem)
    (hk : apiKey ≠ "") (ht : t ≠ "")
    (hp : parse (cleanJson t.data) = some items) :
    verifyManuscript parse apiKey (.ok t) = .ok items := by
  rw [verifyManuscript_ok parse apiKey t hk, if_neg ht, hp]

theorem C2_adapter_passthrough_witness :
    verifyManuscript parseStub "key" (.ok bogusResponseText)
      = .ok [bogusItem] :=
  C2_adapter_passthrough parseStub "key" bogusResponseText [bogusItem]
    (by decide) (by decide) (by decide)

/-- C4: when the response text, cleaned of wrapping fences, still fails
to parse as JSON, the adapter returns the empty item list for the chunk
rather than an error; a failure of the external call itself is not
swallowed and propagates as an error.  The two closing equations check
the fence stripping on a `json`-tagged fence and on a plain fence. -/
theorem C4_malformed_output_tolerance
    (parse : List Char → Option (List VerificationItem))
    (apiKey t : String) (hk : apiKey ≠ "") (ht : t ≠ "")
    (hp : parse (cleanJson t.data) = none) :
    verifyManuscript parse apiKey (.ok t) = .ok []
    ∧ verifyManuscript parse apiKey .callFailed = .error .apiFailure
    ∧ cleanJson (("```json\nnot json at all\n```").data)
      = ("not json at all").data
    ∧ cleanJson (("``` [1, ] ```").data) = ("[1, ]").data := by
  refine ⟨?_, verifyManuscript_callFailed parse apiKey hk, by decide,
    by decide⟩
  rw [verifyManuscript_ok parse apiKey t hk, if_neg ht, hp]

theorem C4_malformed_output_tolerance_witness :
    verifyManuscript (fun _ => none) "key" (.ok "not json") = .ok []
    ∧ verifyManuscript (fun _ => none) "key" .callFailed
      = .error .apiFailure
    ∧ cleanJson (("```json\nnot json at all\n```").data)
      = ("not json at all").data
    ∧ cleanJson (("``` [1, ] ```").data) = ("[1, ]").data :=
  C4_malformed_output_tolerance (fun _ => none) "key" "not json"
    (by decide) (by decide) rfl

/-- The progress record `{ current, total }` of src/App.tsx. -/
structure Progress where
  current : Nat
  total : Nat
deriving DecidableEq

/-- The component state of src/App.tsx that `handleAnalyze` mutates and
the claims observe: the accumulated result set, the progress record
(absent outside a run), and the surfaced error message. -/
structure RunState where
  results : List VerificationItem
  progress : Option Progress
  error : Option String
deriving DecidableEq

def configErrorMsg : String := "Please configure your Gemini API Key first."

def emptyInputMsg : String := "Please input or upload text to verify."

def runErrorMsg : String :=
  "Verification process encountered an error. Please check your API Key and try again."

/-- Models the sequential chunk loop of `handleAnalyze` (src/App.tsx
lines 174-191).  `oracle i content` is the outcome of the awaited
`verifyManuscript(content, apiKey)` call made for chunk index `i`; the
index models the fact that the external service answers each of the
sequential calls independently.  Returns the accumulated results, the
progress record as last set, and the error of the first failing call,
if any. -/
def loopChunks
    (oracle : Nat → List Char → Except OracleError (List VerificationItem))
    (fullText : List Char) (total : Nat) :
    List Chunk → Nat → List VerificationItem → Progress →
      List VerificationItem × Progress × Option OracleError
  | [], _, acc, prog => (acc, prog, none)
  | c :: rest, i, acc, prog =>
    match oracle i (annotate fullText i c.text c.startIndex) with
    | .error e => (acc, prog, some e)
    | .ok items =>
      loopChunks oracle fullText total rest (i + 1) (acc ++ items)
        ⟨i + 1, total⟩

/-- Models `handleAnalyze` (src/App.tsx lines 155-199) as a state
transformer: the two guard returns leave the previous state except for
the error message; otherwise the run starts from a cleared state, the
catch block turns the first loop error into the run-level message, and
the finally block resets progress to null. -/
def handleAnalyze
    (oracle : Nat → List Char → Except OracleError (List VerificationItem))
    (apiKey : String) (prev : RunState) (inputText : List Char)
    (size : Nat) : RunState :=
  if apiKey = "" then { prev with error := some configErrorMsg }
  else if jsTrim inputText = [] then
    { prev with error := some emptyInputMsg }
  else
    { results := (loopChunks oracle inputText
        (createChunks inputText size).length (createChunks inputText size)
        0 [] ⟨0, (createChunks inputText size).length⟩).1,
      progress := none,
      error := match (loopChunks oracle inputText
          (createChunks inputText size).length
          (createChunks inputText size) 0 []
          ⟨0, (createChunks inputText size).length⟩).2.2 with
        | some _ => some runErrorMsg
        | none => none }

lemma loopChunks_nil
    (oracle : Nat → List Char → Except OracleError (List VerificationItem))
    (fullText : List Char) (total i : Nat)
    (acc : List VerificationItem) (prog : Progress) :
    loopChunks oracle fullText total [] i acc prog = (acc, prog, none) :=
  rfl

lemma loopChunks_cons_error
    (oracle : Nat → List Char → Except OracleError (List VerificationItem))
    (fullText : List Char) (total : Nat) (c : Chunk) (rest : List Chunk)
    (i : Nat) (acc : List VerificationItem) (prog : Progress)
    (e : OracleError)
    (h : oracle i (annotate fullText i c.text c.startIndex) = .error e) :
    loopChunks oracle fullText total (c :: rest) i acc prog
      = (acc, prog, some e) := by
  show (match oracle i (annotate fullText i c.text c.startIndex) with
    | .error e => (acc, prog, some e)
    | .ok items =>
      loopChunks oracle fullText total rest (i + 1) (acc ++ items)
        ⟨i + 1, total⟩) = _
  rw [h]

lemma loopChunks_cons_ok
    (oracle : Nat → List Char → Except OracleError (List VerificationItem))
    (fullText : List Char) (total : Nat) (c : Chunk) (rest : List Chunk)
    (i : Nat) (acc : List VerificationItem) (prog : Progress)
    (items : List VerificationItem)
    (h : oracle i (annotate fullText i c.text c.startIndex) = .ok items) :
    loopChunks oracle fullText total (c :: rest) i acc prog
      = loopChunks oracle fullText total rest (i + 1) (acc ++ items)
          ⟨i + 1, total⟩ := by
  show (match oracle i (annotate fullText i c.text c.startIndex) with
    | .error e => (acc, prog, some e)
    | .ok items =>
      loopChunks oracle fullText total rest (i + 1) (acc ++ items)
        ⟨i + 1, total⟩) = _
  rw [h]

lemma loopChunks_fail
    (oracle : Nat → List Char → Except OracleError (List VerificationItem))
    (fullText : List Char) (total : Nat) :
    ∀ (cs : List Chunk) (i f : Nat) (acc : List VerificationItem)
      (g : Nat → List VerificationItem) (e : OracleError),
      f < cs.length →
      (∀ j, j < f →
        oracle (i + j) (annotate fullText (i + j) (cs[j]!).text
          (cs[j]!).startIndex) = .ok (g (i + j))) →
      oracle (i + f) (annotate fullText (i + f) (cs[f]!).text
        (cs[f]!).startIndex) = .error e →
      loopChunks oracle fullText total cs i acc ⟨i, total⟩
        = (acc ++ ((List.range f).map fun j => g (i + j)).flatten,
            ⟨i + f, total⟩, some e) := by
  intro cs
  induction cs with
  | nil =>
    intro i f acc g e hf hok herr
    simp at hf
  | cons c rest ih =>
    intro i f acc g e hf hok herr
    cases f with
    | zero =>
      have h0 : (c :: rest)[0]! = c := by simp
      simp only [Nat.add_zero, h0] at herr
      rw [loopChunks_cons_error oracle fullText total c rest i acc _ e herr]
      simp
    | succ f' =>
      have h0 : (c :: rest)[0]! = c := by simp
      have hc := hok 0 (by omega)
      simp only [Nat.add_zero, h0] at hc
      rw [loopChunks_cons_ok oracle fullText total c rest i acc _ _ hc]
      have hok' : ∀ j, j < f' →
          oracle ((i + 1) + j) (annotate fullText ((i + 1) + j)
            (rest[j]!).text (rest[j]!).startIndex)
            = .ok (g ((i + 1) + j)) := by
        intro j hj
        have hstep := hok (j + 1) (by omega)
        have hcons : (c :: rest)[j + 1]! = rest[j]! := by simp
        have e1 : i + (j + 1) = (i + 1) + j := by omega
        rw [hcons, e1] at hstep
        exact hstep
      have herr' : oracle ((i + 1) + f') (annotate fullText ((i + 1) + f')
          (rest[f']!).text (rest[f']!).startIndex) = .error e := by
        have hcons : (c :: rest)[f' + 1]! = rest[f']! := by simp
        have e1 : i + (f' + 1) = (i + 1) + f' := by omega
        rw [hcons, e1] at herr
        exact herr
      have hrec := ih (i + 1) f' (acc ++ g i) g e
        (by simp at hf; omega) hok' herr'
      rw [hrec]
      have hlist : (acc ++ g i)
            ++ ((List.range f').map fun j => g ((i + 1) + j)).flatten
          = acc ++ ((List.range (f' + 1)).map fun j => g (i + j)).flatten := by
        rw [List.append_assoc]
        congr 1
        rw [List.range_succ_eq_map, List.map_cons, List.flatten_cons,
          List.map_map, Nat.add_zero]
        congr 1
        congr 1
        apply List.map_congr_left
        intro j hj
        show g (i + 1 + j) = g (i + Nat.succ j)
        congr 1
        omega
      have hprog : (⟨i + 1 + f', total⟩ : Progress)
          = ⟨i + (f' + 1), total⟩ := by
        congr 1
        omega
      rw [hlist, hprog]

lemma handleAnalyze_fail
    (oracle : Nat → List Char → Except OracleError (List VerificationItem))
    (apiKey : String) (prev : RunState) (inputText : List Char)
    (size : Nat) (f : Nat) (g : Nat → List VerificationItem)
    (e : OracleError) (hk : apiKey ≠ "") (hne : jsTrim inputText ≠ [])
    (hf : f < (createChunks inputText size).length)
    (hok : ∀ j, j < f →
      oracle j (annotate inputText j
        (((createChunks inputText size)[j]!).text)
        (((createChunks inputText size)[j]!).startIndex)) = .ok (g j))
    (herr : oracle f (annotate inputText f
      (((createChunks inputText size)[f]!).text)
      (((createChunks inputText size)[f]!).startIndex)) = .error e) :
    loopChunks oracle inputText (createChunks inputText size).length
        (createChunks inputText size) 0 []
        ⟨0, (createChunks inputText size).length⟩
      = (((List.range f).map g).flatten,
          ⟨f, (createChunks inputText size).length⟩, some e)
    ∧ handleAnalyze oracle apiKey prev inputText size
      = { results := ((List.range f).map g).flatten,
          progress := none, error := some runErrorMsg } := by
  have hok0 : ∀ j, j < f →
      oracle (0 + j) (annotate inputText (0 + j)
        (((createChunks inputText size)[j]!).text)
        (((createChunks inputText size)[j]!).startIndex))
        = .ok (g (0 + j)) := by
    intro j hj
    rw [Nat.zero_add]
    exact hok j hj
  have herr0 : oracle (0 + f) (annotate inputText (0 + f)
      (((createChunks inputText size)[f]!).text)
      (((createChunks inputText size)[f]!).startIndex)) = .error e := by
    rw [Nat.zero_add]
    exact herr
  have hloop := loopChunks_fail oracle inputText
    (createChunks inputText size).length (createChunks inputText size)
    0 f [] g e hf hok0 herr0
  rw [List.nil_append, Nat.zero_add] at hloop
  have hmap : ((List.range f).map fun j => g (0 + j))
      = (List.range f).map g := by
    apply List.map_congr_left
    intro j hj
    rw [Nat.zero_add]
  rw [hmap] at hloop
  refine ⟨hloop, ?_⟩
  unfold handleAnalyze
  rw [if_neg hk, if_neg hne, hloop]

/-- C3 counterexample: two chunks, the oracle returns one item for chunk
1 and fails on chunk 2.  The run aborts with the item retained and the
run-level error surfaced, but the final progress state is null (reset by
the cleanup), not `current = 1, total = 2` as the claim asserts; the
progress value last set before the failure was `⟨1, 2⟩`. -/
theorem C3_failure_progress_counterexample :
    handleAnalyze
        (fun i _ => if i = 0 then .ok [⟨"Page 1, Para 1", "q", "s",
          "ACCURATE", "n"⟩] else .error .apiFailure)
        "key" ⟨[], none, none⟩ ("abcd".toList) 2
      = { results := [⟨"Page 1, Para 1", "q", "s", "ACCURATE", "n"⟩],
          progress := none, error := some runErrorMsg }
    ∧ (handleAnalyze
        (fun i _ => if i = 0 then .ok [⟨"Page 1, Para 1", "q", "s",
          "ACCURATE", "n"⟩] else .error .apiFailure)
        "key" ⟨[], none, none⟩ ("abcd".toList) 2).progress
      ≠ some ⟨1, 2⟩
    ∧ (loopChunks
        (fun i _ => if i = 0 then .ok [⟨"Page 1, Para 1", "q", "s",
          "ACCURATE", "n"⟩] else .error .apiFailure)
        ("abcd".toList) 2 (createChunks ("abcd".toList) 2) 0 []
        ⟨0, 2⟩).2.1 = ⟨1, 2⟩ := by
  refine ⟨by decide, by decide, by decide⟩

/-- C3 amended: if the oracle fails on chunk index f (0-based; chunk
k = f + 1 in the claim numbering) after succeeding on all earlier
chunks, the orchestrator aborts the run: the final state keeps exactly
the items appended from the earlier chunks in order, surfaces the
run-level error message (distinct from an empty result set with no
error), and is unchanged if the oracle is replaced by any oracle
agreeing on the calls up to index f, so no later chunk influences the
outcome; the progress value last set before the failure is
`current = f, total = n`, but the cleanup then resets the progress state
to null, so the final state carries no progress record. -/
theorem C3_abort_on_oracle_error
    (oracle : Nat → List Char → Except OracleError (List VerificationItem))
    (apiKey : String) (prev : RunState) (inputText : List Char)
    (size : Nat) (f : Nat) (g : Nat → List VerificationItem)
    (e : OracleError) (hk : apiKey ≠ "") (hne : jsTrim inputText ≠ [])
    (hf : f < (createChunks inputText size).length)
    (hok : ∀ j, j < f →
      oracle j (annotate inputText j
        (((createChunks inputText size)[j]!).text)
        (((createChunks inputText size)[j]!).startIndex)) = .ok (g j))
    (herr : oracle f (annotate inputText f
      (((createChunks inputText size)[f]!).text)
      (((createChunks inputText size)[f]!).startIndex)) = .error e) :
    loopChunks oracle inputText (createChunks inputText size).length
        (createChunks inputText size) 0 []
        ⟨0, (createChunks inputText size).length⟩
      = (((List.range f).map g).flatten,
          ⟨f, (createChunks inputText size).length⟩, some e)
    ∧ handleAnalyze oracle apiKey prev inputText size
      = { results := ((List.range f).map g).flatten,
          progress := none, error := some runErrorMsg }
    ∧ ∀ oracle', (∀ j content, j ≤ f → oracle' j content = oracle j content) →
        handleAnalyze oracle' apiKey prev inputText size
          = handleAnalyze oracle apiKey prev inputText size := by
  obtain ⟨h1, h2⟩ := handleAnalyze_fail oracle apiKey prev inputText size
    f g e hk hne hf hok herr
  refine ⟨h1, h2, ?_⟩
  intro oracle' hagree
  have hok' : ∀ j, j < f →
      oracle' j (annotate inputText j
        (((createChunks inputText size)[j]!).text)
        (((createChunks inputText size)[j]!).startIndex)) = .ok (g j) := by
    intro j hj
    rw [hagree j _ (by omega)]
    exact hok j hj
  have herr' : oracle' f (annotate inputText f
      (((createChunks inputText size)[f]!).text)
      (((createChunks inputText size)[f]!).startIndex)) = .error e := by
    rw [hagree f _ le_rfl]
    exact herr
  obtain ⟨-, h2'⟩ := handleAnalyze_fail oracle' apiKey prev inputText size
    f g e hk hne hf hok' herr'
  rw [h2, h2']

theorem C3_abort_on_oracle_error_witness :
    handleAnalyze
        (fun i _ => if i = 0 then .ok [⟨"Page 1, Para 1", "q", "s",
          "ACCURATE", "n"⟩] else .error .apiFailure)
        "key" ⟨[], none, none⟩ ("abcd".toList) 2
      = { results := ((List.range 1).map fun _ =>
            [⟨"Page 1, Para 1", "q", "s", "ACCURATE", "n"⟩]).flatten,
          progress := none, error := some runErrorMsg } :=
  (C3_abort_on_oracle_error
    (fun i _ => if i = 0 then .ok [⟨"Page 1, Para 1", "q", "s",
      "ACCURATE", "n"⟩] else .error .apiFailure)
    "key" ⟨[], none, none⟩ ("abcd".toList) 2 1
    (fun _ => [⟨"Page 1, Para 1", "q", "s", "ACCURATE", "n"⟩])
    .apiFailure (by decide) (by decide) (by decide)
    (by
      intro j hj
      have hj0 : j = 0 := by omega
      subst hj0
      rfl)
    rfl).2.1

example : scanMarkers ("[P1]\nAlpha\n[P2]\nBeta".toList) =
    [(0, "[P1]".toList), (11, "[P2]".toList)] := by decide

example : matchMarkerAt ("[P]x".toList) = none := by decide

example : matchMarkerAt ("[P12]x".toList) = some ("[P12]".toList) := by decide

example : createChunks ("abcd".toList) 2 =
    [⟨"ab".toList, 0⟩, ⟨"cd".toList, 2⟩] := by decide

example : createChunks ("".toList) 5 = [] := by decide

example : chunkEnd ("aaaaaaaaa\naaaaa".toList) 10 0 = 10 := by decide

example : chunkEnd ("aaaaaaaaaaaaaaaaaaa\naaaaaaaaaa".toList) 20 0 = 19 := by decide

end Veritas
